import Mathlib

/-!
Verification development for the pmerge execution and diagnostics layer of a
package manager.  The definitions below are shallow embeddings of the functions
in `pkgcore/scripts/pmerge.py`: token disambiguation (`parse_atom`), slot
normalisation (`slotatom_if_slotted`), world-set bookkeeping
(`update_worldset`), the failure-trace renderer (`display_failures`), the
resolve/retry loop, and the sequential merge executor with its cleanup stack.
-/

/-! ### Package and atom data model -/

/-- A concrete package: category, name, version, and slot string. -/
structure Pkg where
  category : String
  name : String
  version : String
  slotStr : String
deriving DecidableEq, Repr

def slashS : String := "/"

/-- The package key, `category/name`. -/
def Pkg.keyS (p : Pkg) : String := p.category ++ slashS ++ p.name

/-- A package atom: a category/name pair with optional version and optional
slot qualifier (slots are a tuple in the source, modelled as a list). -/
structure PAtom where
  category : String
  name : String
  version : Option String
  slot : Option (List String)
deriving DecidableEq, Repr

def PAtom.keyS (a : PAtom) : String := a.category ++ slashS ++ a.name

/-- Whether an atom matches a package: key equality plus the optional
version and slot constraints. -/
def atomMatches (a : PAtom) (p : Pkg) : Bool :=
  a.category == p.category && a.name == p.name &&
    (match a.version with
     | none => true
     | some v => v == p.version) &&
    (match a.slot with
     | none => true
     | some ss => ss.contains p.slotStr)

/-- A restriction as produced by `parserestrict.parse_match`: either a literal
atom, a package-name match (optionally version-qualified), or a key-scoped
`KeyedAndRestriction` as built by `parse_atom`. -/
inductive Restriction where
  | atomR (a : PAtom)
  | nameMatch (name : String) (ver : Option String)
  | keyedAnd (inner : Restriction) (key : String)
deriving DecidableEq, Repr

/-- Restriction matching over packages. -/
def rmatch : Restriction → Pkg → Bool
  | .atomR a, p => atomMatches a p
  | .nameMatch n v, p =>
      n == p.name &&
        (match v with
         | none => true
         | some vv => vv == p.version)
  | .keyedAnd r k, p => k == p.keyS && rmatch r p

/-! ### Restriction resolver (`parse_atom`, pmerge.py lines 359-387) -/

def virtualCat : String := "virtual"

def keyOf (p : Pkg) : String × String := (p.category, p.name)

/-- `set(x.key for x in repo.itermatch(restriction))`: the distinct package
keys of the repo matches. -/
def keyMatches (r : Restriction) (repo : List Pkg) : List (String × String) :=
  ((repo.filter (fun p => rmatch r p)).map keyOf).eraseDups

/-- `set(x.key for x in livefs_repos.itermatch(restriction) if x.category !=
'virtual')`: distinct keys of the installed matches outside the virtual
category. -/
def installedKeyMatches (r : Restriction) (livefs : List Pkg) : List (String × String) :=
  ((livefs.filter (fun p => rmatch r p && p.category != virtualCat)).map keyOf).eraseDups

def keyStr (kp : String × String) : String := kp.1 ++ slashS ++ kp.2

/-- `sorted(key_matches)`: keys rendered as strings, sorted. -/
def sortedKeyStrs (l : List (String × String)) : List String :=
  List.insertionSort (fun a b => a ≤ b) (l.map keyStr)

/-- Outcome of `parse_atom`: either a restriction, or one of the two parse
errors it raises. -/
inductive ParseResult where
  | okR (r : Restriction)
  | noMatches (r : Restriction)
  | ambiguousQuery (r : Restriction) (keys : List String)
deriving DecidableEq, Repr

/-- Shallow embedding of `parse_atom` (pmerge.py lines 359-387).  Zero key
matches raise `NoMatches`; with more than one distinct key the installed
(non-virtual) keys are consulted: exactly one installed key yields the bare
atom of that key, anything else raises `AmbiguousQuery` with the sorted
original candidate keys; a unique key returns the input atom unchanged or a
`KeyedAndRestriction` scoped to the key. -/
def parse_atom (r : Restriction) (repo livefs : List Pkg) : ParseResult :=
  match keyMatches r repo with
  | [] => .noMatches r
  | [k] =>
    (match r with
     | .atomR _ => .okR r
     | _ => .okR (.keyedAnd r (keyStr k)))
  | k1 :: k2 :: ks =>
    (match installedKeyMatches r livefs with
     | [ik] => .okR (.atomR (PAtom.mk ik.1 ik.2 none none))
     | _ => .ambiguousQuery r (sortedKeyStrs (k1 :: k2 :: ks)))

/-- Modelled from the claim wording for C1 (spec section 4.1/8): the
narrowing step is read literally as *intersecting* the candidate keys with the
installed-repo matches, so only original candidates can survive narrowing.
This is the reading under test; `parse_atom` above is the code. -/
def resolve_token_claim (r : Restriction) (repo livefs : List Pkg) : ParseResult :=
  match keyMatches r repo with
  | [] => .noMatches r
  | [k] =>
    (match r with
     | .atomR _ => .okR r
     | _ => .okR (.keyedAnd r (keyStr k)))
  | k1 :: k2 :: ks =>
    (match (k1 :: k2 :: ks).filter (fun k => (installedKeyMatches r livefs).contains k) with
     | [ik] => .okR (.atomR (PAtom.mk ik.1 ik.2 none none))
     | _ => .ambiguousQuery r (sortedKeyStrs (k1 :: k2 :: ks)))

/-! ### Slot normalisation (`slotatom_if_slotted`, pmerge.py lines 283-297) -/

def slot0S : String := "0"

/-- Outcome of `slotatom_if_slotted`: the returned atom, or the
`AttributeError` the source raises (it initialises `found_slots = ()`, a
tuple, and then calls `found_slots.update(...)` on the first repo match). -/
inductive SlotResult where
  | okA (a : PAtom)
  | attrError
deriving DecidableEq, Repr

/-- Shallow embedding of `slotatom_if_slotted` (pmerge.py lines 283-297).
Atoms without a slot, or whose first slot is not the default `"0"`, are
returned unchanged.  Otherwise the source iterates the repo matches calling
`found_slots.update(...)` where `found_slots` is the empty tuple `()`: with no
matches the loop body never runs and the atom is returned unchanged (the
tuple has length 0, not 1); with at least one match the first iteration
raises `AttributeError` because tuples have no `update` method. -/
def slotatom_if_slotted (repos : List Pkg) (checkatom : PAtom) : SlotResult :=
  match checkatom.slot with
  | none => .okA checkatom
  | some ss =>
    if ss.head? != some slot0S then .okA checkatom
    else
      match repos.filter (fun p => atomMatches checkatom p) with
      | [] => .okA checkatom
      | _ :: _ => .attrError

/-! ### World set (`update_worldset`, pmerge.py lines 300-313) -/

/-- Modelled from the spec: the external world Package Set storage (section 3,
"Package Set"), a named mutable collection with add/remove/flush semantics;
`flushes` counts the synchronous persists. -/
structure WorldSet where
  elems : List PAtom
  flushes : Nat
deriving DecidableEq, Repr

/-- Modelled from the spec: `add(restriction)` is idempotent. -/
def WorldSet.add (w : WorldSet) (a : PAtom) : WorldSet :=
  { w with elems := if a ∈ w.elems then w.elems else w.elems ++ [a] }

/-- Modelled from the spec: `remove(restriction)` raises `KeyError` (here
`none`) when the member is absent. -/
def WorldSet.removeE (w : WorldSet) (a : PAtom) : Option WorldSet :=
  if a ∈ w.elems then some { w with elems := w.elems.erase a } else none

/-- Modelled from the spec: `flush()` persists the set synchronously. -/
def WorldSet.flush (w : WorldSet) : WorldSet := { w with flushes := w.flushes + 1 }

/-- Shallow embedding of `update_worldset` (pmerge.py lines 300-313): a no-op
when the world set is absent; on remove, a `KeyError` from the storage is
swallowed and the flush skipped; otherwise add then flush unconditionally. -/
def update_worldset (world : Option WorldSet) (pkg : PAtom) (remove : Bool) : Option WorldSet :=
  match world with
  | none => none
  | some w =>
    if remove then
      match w.removeE pkg with
      | none => some w
      | some w2 => some w2.flush
    else some ((w.add pkg).flush)

/-! ### Driver loop trace selection (pmerge.py lines 544-556) -/

/-- An opaque raw failure trace handed back by the solver. -/
structure RawTrace where
  tid : Nat
deriving DecidableEq, Repr

/-- Shallow embedding of the failure branch of the resolution driver loop
(pmerge.py lines 547-548): `restrict = ret[0][0]` takes the first pair's
restriction, but the object handed to `reduce_to_failures` is `ret[1]` — the
*second* `(restriction, raw_trace)` pair of the failure list, not the first
pair's raw trace.  `none` models the `IndexError` raised when the failure
list has a single element. -/
def failure_display_selection (ret : List (Restriction × RawTrace)) :
    Option (Restriction × (Restriction × RawTrace)) :=
  match ret.get? 0, ret.get? 1 with
  | some p0, some p1 => some (p0.1, p1)
  | _, _ => none

/-! ### Resolution driver retry loop (pmerge.py lines 544-556) -/

/-- Shallow embedding of the driver's retry loop.  The solver handle
(`add_atoms` after a `reset()`) is modelled from the spec (section 6) as a
function from the atom list to the failure list; diagnostics rendering does
not touch the loop state and is modelled separately.  On failure the first
pair's restriction is recorded; with ignore-failures it is filtered out of
the atom list and the solver re-invoked, otherwise the loop stops.  The fuel
argument counts solver rounds; `none` means the fuel ran out. -/
def resolveLoop (solver : List Restriction → List (Restriction × RawTrace)) (ig : Bool) :
    Nat → List Restriction → List Restriction →
    Option (List Restriction × List Restriction)
  | 0, _, _ => none
  | fuel + 1, atoms, fails =>
    match solver atoms with
    | [] => some (atoms, fails)
    | (restrict, _) :: _ =>
      if ig then
        resolveLoop solver ig fuel (atoms.filter (fun x => x != restrict)) (fails ++ [restrict])
      else some (atoms, fails ++ [restrict])

/-! ### Failure trace structure and renderer (`display_failures`, pmerge.py lines 242-280) -/

def fgRedS : String := "red"

def bangS : String := "!!!"

def resetS : String := "reset"

def indentS : String := " "

mutual
/-- A failure trace as consumed by `display_failures`: the sequence is either
empty (so `sequence.next()` raises `StopIteration`) or a frame (requested
restriction and mode) followed by `(package, steps)` entries. -/
inductive FTrace where
  | empty : FTrace
  | frame (atomS modeS : String) (entries : FEntries) : FTrace
/-- The `(package, steps)` entries of a trace. -/
inductive FEntries where
  | nil : FEntries
  | cons (pkg : String) (steps : FSteps) (rest : FEntries) : FEntries
/-- The steps tried for one package. -/
inductive FSteps where
  | nil : FSteps
  | cons (s : FStep) (rest : FSteps) : FSteps
/-- One step: the tagged variants dispatched in the renderer, or a nested
sub-trace. -/
inductive FStep where
  | nested (t : FTrace) : FStep
  | reduce (choices : List String) : FStep
  | blocker (a : String) (pkgs : List String) : FStep
  | cycle (m a d : String) : FStep
  | viable (flag : Bool) (s3 s4 : String) : FStep
  | choiceS (s1 : String) (ok : Bool) (detail : String) : FStep
  | debugS (msg : String) : FStep
  | other (s : String) : FStep
end

/-- Result of a render call: the final indentation-prefix stack on normal
return, or the stack as left behind when `StopIteration` escapes. -/
inductive DisplayResult where
  | okSt (st : List String)
  | raised (st : List String)
deriving DecidableEq, Repr

mutual
/-- Shallow embedding of `display_failures` (pmerge.py lines 242-280),
threading `out.first_prefix` explicitly.  An empty sequence raises
`StopIteration` at `sequence.next()` before touching the stack.  Otherwise a
first-level call pushes the three-element banner prefix, every call pushes
one indentation level for the frame and one more per package entry, and pops
them in reverse before returning. -/
def display_failures (dbg : Bool) : FTrace → Bool → List String → DisplayResult
  | .empty, _, st => .raised st
  | .frame _ _ entries, firstLevel, st =>
    match display_entries dbg entries
        ((if firstLevel then st ++ [fgRedS, bangS, resetS] else st) ++ [indentS]) with
    | .raised s => .raised s
    | .okSt st3 =>
      .okSt (if firstLevel then st3.dropLast.dropLast.dropLast.dropLast else st3.dropLast)
/-- The per-package entry loop of `display_failures`. -/
def display_entries (dbg : Bool) : FEntries → List String → DisplayResult
  | .nil, st => .okSt st
  | .cons _ steps rest, st =>
    match display_steps dbg steps (st ++ [indentS]) with
    | .raised s => .raised s
    | .okSt st2 => display_entries dbg rest st2.dropLast
/-- The step loop of `display_failures`. -/
def display_steps (dbg : Bool) : FSteps → List String → DisplayResult
  | .nil, st => .okSt st
  | .cons s rest, st =>
    match display_step dbg s st with
    | .raised s2 => .raised s2
    | .okSt st2 => display_steps dbg rest st2
/-- A single step: only a nested sub-trace recurses (with
`first_level=False`); every other tag writes output without touching the
prefix stack. -/
def display_step (dbg : Bool) : FStep → List String → DisplayResult
  | .nested t, st => display_failures dbg t false st
  | _, st => .okSt st
end

/-! ### Merge executor (pmerge.py lines 661-787) -/

/-- The kind of a resolved operation; `op.desc` in the source. -/
inductive OpKind where
  | addK
  | replaceK
  | removeK
deriving DecidableEq, Repr

/-- A resolved operation of the finalized plan. -/
structure MOp where
  kind : OpKind
  pkg : Pkg
  oldPkg : Option Pkg
deriving DecidableEq, Repr

/-- Success/failure outcomes of the external collaborator calls made while
processing one operation (fetch, optional build, finish). -/
structure MOutcome where
  fetchOk : Bool
  buildSupported : Bool
  buildOk : Bool
  finishOk : Bool
deriving DecidableEq, Repr

/-- The phases the executor requests from collaborators. -/
inductive PhaseName where
  | fetchP
  | buildP
  | localizeP
  | installP
  | replaceP
  | removeP
  | finishP
deriving DecidableEq, Repr

/-- Observable executor events: a phase of operation `idx`, or the invocation
of a cleanup obligation that operation `reg` registered (`tag` identifies
which obligation: 0 = release of the op's cached data, 1 = release of the
built package's cached data, 2 = `buildop.cleanup`, 3 = the deferred
`pkg_ops` cleanup, 4 = release of the superseded package's cached data). -/
inductive MEvent where
  | invoke (reg tag : Nat)
  | phase (idx : Nat) (p : PhaseName)
deriving DecidableEq, Repr

/-- Shallow embedding of the body of the executor loop for one operation
(pmerge.py lines 669-747): the phase events it performs, the cleanup tags it
leaves registered for the next drain, and whether it reaches the world-set
update; `none` models `return 1` (abort of the whole run).  Remove operations
register no cleanup; any other operation registers tag 0 before fetching, so
a fetch failure skipped under ignore-failures still leaves tag 0 registered;
a supported build adds tags 1 and 2; tag 3 is always added before localize;
a replace adds tag 4. -/
def processOp (ig fo : Bool) (k : Nat) (op : MOp) (oc : MOutcome) :
    Option (List MEvent × List Nat × Bool) :=
  match op.kind with
  | .removeK =>
    if oc.finishOk then some ([.phase k .removeP, .phase k .finishP], [], true)
    else if ig then some ([.phase k .removeP, .phase k .finishP], [], false)
    else none
  | _ =>
    if !oc.fetchOk then
      if ig then some ([.phase k .fetchP], [0], false) else none
    else if fo then some ([.phase k .fetchP], [0], false)
    else
      let evB : List MEvent :=
        if oc.buildSupported then [.phase k .fetchP, .phase k .buildP]
        else [.phase k .fetchP]
      if oc.buildSupported && !oc.buildOk then
        (if ig then some (evB, [0], false) else none)
      else
        let cl1 : List Nat := (if oc.buildSupported then [0, 1, 2] else [0]) ++ [3]
        let evL := evB ++ [.phase k .localizeP]
        let evA := evL ++ [.phase k (if op.kind == .replaceK then .replaceP else .installP)]
        let cl2 := if op.kind == .replaceK then cl1 ++ [4] else cl1
        let evF := evA ++ [.phase k .finishP]
        if oc.finishOk then some (evF, cl2, true)
        else if ig then some (evF, cl2, false)
        else none

/-- `op.pkg.versioned_atom`: the exact-version atom of a package; it carries
no slot qualifier. -/
def Pkg.versioned_atom (p : Pkg) : PAtom := PAtom.mk p.category p.name (some p.version) none

/-- The world-set block at the end of each loop iteration (pmerge.py lines
755-764), reached only when `finish()` completed without a skip: a remove
operation always records the slot-normalised removal in the world set; an
install/replace records it only when not oneshot, the package matches one of
the user-requested atoms, and this is not an upgrade run.  `none` models an
exception escaping from `slotatom_if_slotted`. -/
def worldStep (oneshot upgrade : Bool) (atoms : List Restriction) (slotRepo : List Pkg)
    (op : MOp) (world : Option WorldSet) : Option (Option WorldSet) :=
  match world with
  | none => some none
  | some w =>
    match op.kind with
    | .removeK =>
      (match slotatom_if_slotted slotRepo op.pkg.versioned_atom with
       | .attrError => none
       | .okA a => some (update_worldset (some w) a true))
    | _ =>
      if !oneshot && atoms.any (fun r => rmatch r op.pkg) then
        if !upgrade then
          (match slotatom_if_slotted slotRepo op.pkg.versioned_atom with
           | .attrError => none
           | .okA a => some (update_worldset (some w) a false))
        else some (some w)
      else some (some w)

/-- Shallow embedding of the executor loop (pmerge.py lines 661-784): at the
top of each iteration the cleanup obligations left by the previous operation
are drained, then the operation is processed and its own obligations become
the registered list; after the final operation the remaining obligations are
drained once more.  Returns the event trace and the final world set, or
`none` when some operation aborts the whole run. -/
def execRun (ig fo oneshot upgrade : Bool) (atoms : List Restriction) (slotRepo : List Pkg) :
    Nat → List (MOp × MOutcome) → List (Nat × Nat) → Option WorldSet →
    Option (List MEvent × Option WorldSet)
  | _, [], cleanup, world => some (cleanup.map (fun ct => .invoke ct.1 ct.2), world)
  | k, (op, oc) :: rest, cleanup, world =>
    match processOp ig fo k op oc with
    | none => none
    | some (evs, tags, doWorld) =>
      match (if doWorld then worldStep oneshot upgrade atoms slotRepo op world else some world) with
      | none => none
      | some w2 =>
        match execRun ig fo oneshot upgrade atoms slotRepo (k + 1) rest
            (tags.map (fun t => (k, t))) w2 with
        | none => none
        | some (tr, wf) =>
          some ((cleanup.map (fun ct => .invoke ct.1 ct.2)) ++ evs ++ tr, wf)

/-- pmerge.py lines 405-407: `world_set = options.world; if options.oneshot:
world_set = None`. -/
def effectiveWorldSet (oneshot : Bool) (w : WorldSet) : Option WorldSet :=
  if oneshot then none else some w

/-- The cleanup tags registered by the operation at absolute index `r` of a
run whose remaining operations `ops` start at index `k`. -/
def cleanupTagsFrom (ig fo : Bool) (k : Nat) (ops : List (MOp × MOutcome)) (r : Nat) : List Nat :=
  match ops[r - k]? with
  | some (op, oc) => (processOp ig fo r op oc).elim [] (fun x => x.2.1)
  | none => []

/-- The cleanup tags registered by the operation at position `k` of the plan
(for a run starting at index 0). -/
def cleanupTagsAt (ig fo : Bool) (ops : List (MOp × MOutcome)) (k : Nat) : List Nat :=
  cleanupTagsFrom ig fo 0 ops k

/-- Whether an event is a phase of operation `k`. -/
def MEvent.isPhaseAt (k : Nat) : MEvent → Bool
  | .phase j _ => j == k
  | .invoke _ _ => false

/-- Timestamp of an event in plan order: operation `k`'s phases happen at time
`2k+1`, and the obligations it registered are drained at time `2k+2` (the
start of operation `k+1`, or the final drain). -/
def MEvent.stamp : MEvent → Nat
  | .invoke r _ => 2 * r + 2
  | .phase j _ => 2 * j + 1

/-- Every `P`-event of the trace occurs strictly before every `Q`-event. -/
def eventsBefore (tr : List MEvent) (P Q : MEvent → Prop) : Prop :=
  ∀ i j (hi : i < tr.length) (hj : j < tr.length),
    P (tr.get ⟨i, hi⟩) → Q (tr.get ⟨j, hj⟩) → i < j

/-! ### Concrete instances used in counterexamples and witnesses -/

def aS : String := "a"

def bS : String := "b"

def cS : String := "c"

def pS : String := "p"

def qS : String := "q"

def v1S : String := "1"

def v2S : String := "2"

/-- A name-only token restriction matching every package called `p`. -/
def demoTok : Restriction := .nameMatch pS none

/-- A version-qualified name token `=p-1` (no category). -/
def demoTokVer : Restriction := .nameMatch pS (some v1S)

/-- A repository holding `a/p-1` and `b/p-1`: two distinct candidate keys. -/
def c1repo : List Pkg := [Pkg.mk aS pS v1S slot0S, Pkg.mk bS pS v1S slot0S]

/-- An installed repository holding only `c/p-1`: one non-virtual installed
key that is *not* among the candidates. -/
def c1livefs : List Pkg := [Pkg.mk cS pS v1S slot0S]

/-- An installed repository holding `a/p-1` and `c/p-1`: two non-virtual
installed keys. -/
def c1livefs2 : List Pkg := [Pkg.mk aS pS v1S slot0S, Pkg.mk cS pS v1S slot0S]

/-- A default-slot atom `a/p:0`. -/
def demoSlotAtom : PAtom := PAtom.mk aS pS none (some [slot0S])

/-- The package `a/p-1` in slot `0`. -/
def demoPkgSlot0 : Pkg := Pkg.mk aS pS v1S slot0S

def demoR1 : Restriction := .nameMatch pS none

def demoR2 : Restriction := .nameMatch qS none

/-- A solver that fails its first atom until the list is empty, used to
exercise the retry loop. -/
def demoSolver (ats : List Restriction) : List (Restriction × RawTrace) :=
  match ats with
  | [] => []
  | a :: _ => [(a, RawTrace.mk 0)]

def demoAtoms : List Restriction := [demoR1, demoR2]

/-- A trace whose first package entry contains a nested *empty* sub-trace:
rendering it raises `StopIteration` mid-descent. -/
def c5bad : FTrace :=
  .frame aS aS (.cons pS (.cons (.nested .empty) .nil) .nil)

/-- A well-formed nested trace on which rendering completes. -/
def c5good : FTrace :=
  .frame aS aS
    (.cons pS
      (.cons (.reduce [pS])
        (.cons (.nested (.frame bS bS (.cons qS .nil .nil)))
          (.cons (.debugS cS) .nil)))
      (.cons qS (.cons (.choiceS cS false cS) .nil) .nil))

def xS : String := "x"

/-- All collaborator calls succeed; no build phase offered. -/
def okOutcome : MOutcome := MOutcome.mk true false true true

/-- The fetch phase fails; everything else would succeed. -/
def fetchFailOutcome : MOutcome := MOutcome.mk false false true true

def pkgA : Pkg := Pkg.mk aS pS v1S slot0S

def pkgB : Pkg := Pkg.mk bS qS v2S slot0S

def installA : MOp := MOp.mk .addK pkgA none

def installB : MOp := MOp.mk .addK pkgB none

def removeB : MOp := MOp.mk .removeK pkgB none

/-- Plan for C7: operation 0's fetch fails, operation 1 succeeds. -/
def c7ops : List (MOp × MOutcome) := [(installA, fetchFailOutcome), (installB, okOutcome)]

/-- The trace of running `c7ops` with ignore-failures set: the skipped
operation's registered cleanup (tag 0) is drained at the start of the next
operation. -/
def c7trace : List MEvent :=
  [.phase 0 .fetchP, .invoke 0 0,
   .phase 1 .fetchP, .phase 1 .localizeP, .phase 1 .installP, .phase 1 .finishP,
   .invoke 1 0, .invoke 1 3]

/-- Plan for the C6 witness. -/
def c6ops : List (MOp × MOutcome) := [(installA, okOutcome), (removeB, okOutcome)]

/-- The trace of running `c6ops`: operation 0's obligations are drained
before operation 1's phases; the remove operation registers none. -/
def c6trace : List MEvent :=
  [.phase 0 .fetchP, .phase 0 .localizeP, .phase 0 .installP, .phase 0 .finishP,
   .invoke 0 0, .invoke 0 3,
   .phase 1 .removeP, .phase 1 .finishP]

/-- Plan for C9: install A then install B, all phases succeeding. -/
def c9ops (pA pB : Pkg) : List (MOp × MOutcome) :=
  [(MOp.mk .addK pA none, okOutcome), (MOp.mk .addK pB none, okOutcome)]

/-- The event trace of a two-install run in which every phase succeeds. -/
def c9trace : List MEvent :=
  [.phase 0 .fetchP, .phase 0 .localizeP, .phase 0 .installP, .phase 0 .finishP,
   .invoke 0 0, .invoke 0 3,
   .phase 1 .fetchP, .phase 1 .localizeP, .phase 1 .installP, .phase 1 .finishP,
   .invoke 1 0, .invoke 1 3]

/-- User atoms for the C9 witness: the unversioned atoms of `pkgA` and
`pkgB`. -/
def c9atoms : List Restriction :=
  [.atomR (PAtom.mk aS pS none none), .atomR (PAtom.mk bS qS none none)]

/-! ### Helper lemmas -/

theorem WorldSet.mem_add_elems (w : WorldSet) (a x : PAtom) :
    x ∈ (w.add a).elems ↔ x ∈ w.elems ∨ x = a := by
  unfold WorldSet.add
  by_cases h : a ∈ w.elems
  · simp only [h, if_pos]
    constructor
    · exact Or.inl
    · rintro (hx | rfl)
      · exact hx
      · exact h
  · simp [h]

theorem WorldSet.add_elems_twice (w : WorldSet) (a : PAtom) :
    ((w.add a).add a).elems = (w.add a).elems := by
  have hmem : a ∈ (w.add a).elems := (WorldSet.mem_add_elems w a a).mpr (Or.inr rfl)
  show (if a ∈ (w.add a).elems then (w.add a).elems else (w.add a).elems ++ [a]) = (w.add a).elems
  rw [if_pos hmem]

theorem length_filter_ne_lt (l : List Restriction) (r : Restriction) (h : r ∈ l) :
    (l.filter (fun x => x != r)).length < l.length := by
  induction l with
  | nil => cases h
  | cons a t ih =>
    by_cases ha : a = r
    · subst ha
      have hle := List.length_filter_le (fun x => x != a) t
      simp only [List.filter_cons, bne_self_eq_false, Bool.false_eq_true, if_false,
        List.length_cons]
      omega
    · have hmem : r ∈ t := by
        rcases List.mem_cons.mp h with h1 | h1
        · exact absurd h1.symm ha
        · exact h1
      have hlt := ih hmem
      simp only [List.filter_cons]
      by_cases hb : (a != r) = true
      · rw [if_pos hb]
        simp only [List.length_cons]
        omega
      · rw [if_neg (by simp [hb])]
        simp only [List.length_cons]
        omega

theorem resolveLoop_total (solver : List Restriction → List (Restriction × RawTrace))
    (ig : Bool) (hs : ∀ ats p ps, solver ats = p :: ps → p.1 ∈ ats) :
    ∀ n atoms fails, atoms.length < n → (resolveLoop solver ig n atoms fails).isSome = true := by
  intro n
  induction n with
  | zero => intro atoms fails h; omega
  | succ m ih =>
    intro atoms fails h
    cases hsol : solver atoms with
    | nil => simp [resolveLoop, hsol]
    | cons p ps =>
      obtain ⟨restrict, t⟩ := p
      by_cases hig : ig
      · subst hig
        simp only [resolveLoop, hsol, if_true]
        apply ih
        have hmem : restrict ∈ atoms := hs atoms (restrict, t) ps hsol
        have hlt := length_filter_ne_lt atoms restrict hmem
        omega
      · simp only [Bool.not_eq_true] at hig
        subst hig
        simp [resolveLoop, hsol]

/-! ### Claim theorems: resolver, slot normaliser, world set, driver -/

/-- C1, counterexample: with candidates `{a/p, b/p}` and the single installed
non-virtual match `c/p` that is *not* among the candidates, the code returns
the bare atom `c/p`, while the claim's narrowing-by-intersection leaves zero
candidate keys and therefore demands an `AmbiguousQuery` failure. -/
theorem c1_counterexample :
    parse_atom demoTok c1repo c1livefs = .okR (.atomR (PAtom.mk cS pS none none)) ∧
    resolve_token_claim demoTok c1repo c1livefs =
      .ambiguousQuery demoTok (sortedKeyStrs [(aS, pS), (bS, pS)]) ∧
    parse_atom demoTok c1repo c1livefs ≠ resolve_token_claim demoTok c1repo c1livefs := by
  have h1 : parse_atom demoTok c1repo c1livefs =
      .okR (.atomR (PAtom.mk cS pS none none)) := by decide
  have h2 : resolve_token_claim demoTok c1repo c1livefs =
      .ambiguousQuery demoTok (sortedKeyStrs [(aS, pS), (bS, pS)]) := rfl
  refine ⟨h1, h2, ?_⟩
  rw [h1, h2]
  intro h
  exact ParseResult.noConfusion h

/-- C1, amended: `parse_atom` fails with `NoMatches` when zero keys match;
with two or more distinct candidate keys it narrows to the distinct keys of
the installed-repo matches excluding the virtual category (these need not be
among the candidates): exactly one such installed key yields the bare atom of
that key, and otherwise it fails with `AmbiguousQuery` carrying the full
sorted list of all original candidate keys. -/
theorem c1_resolve_token_cases (r : Restriction) (repo livefs : List Pkg) :
    (keyMatches r repo = [] → parse_atom r repo livefs = .noMatches r) ∧
    (∀ k1 k2 ks, keyMatches r repo = k1 :: k2 :: ks →
      (∀ ik, installedKeyMatches r livefs = [ik] →
        parse_atom r repo livefs = .okR (.atomR (PAtom.mk ik.1 ik.2 none none))) ∧
      ((installedKeyMatches r livefs).length ≠ 1 →
        parse_atom r repo livefs = .ambiguousQuery r (sortedKeyStrs (k1 :: k2 :: ks)))) := by
  constructor
  · intro h
    simp [parse_atom, h]
  · intro k1 k2 ks h
    constructor
    · intro ik hik
      simp [parse_atom, h, hik]
    · intro hlen
      cases hI : installedKeyMatches r livefs with
      | nil => simp [parse_atom, h, hI]
      | cons i1 is =>
        cases is with
        | nil => rw [hI] at hlen; simp at hlen
        | cons i2 is2 => simp [parse_atom, h, hI]

theorem c1_witness :
    keyMatches demoTok c1repo = [(aS, pS), (bS, pS)] ∧
    parse_atom demoTok c1repo c1livefs2 =
      .ambiguousQuery demoTok (sortedKeyStrs [(aS, pS), (bS, pS)]) :=
  ⟨by decide,
   ((c1_resolve_token_cases demoTok c1repo c1livefs2).2 (aS, pS) (bS, pS) []
     (by decide)).2 (by decide)⟩

/-- C2: the claim expects a default-slot restriction whose key spans exactly
one slot to be rewritten to the bare key atom, but on any repository with at
least one match the code raises `AttributeError`: `found_slots` is the empty
tuple `()` and tuples have no `update` method, so `slotatom_if_slotted` can
never perform the check its own docstring describes.  Here `a/p:0` matches
exactly one package with the single slot `"0"`, yet the call errors instead
of returning `atom("a/p")`. -/
theorem c2_slotatom_attribute_error :
    slotatom_if_slotted [demoPkgSlot0] demoSlotAtom = .attrError ∧
    (([demoPkgSlot0].filter (fun p => atomMatches demoSlotAtom p)).map Pkg.slotStr).eraseDups
      = [slot0S] := by
  refine ⟨by decide, by decide⟩

/-- C3: the claim says the driver reduces and renders *the first pair's* raw
trace, but the code passes `ret[1]` — the whole second pair — to
`reduce_to_failures`.  With a single failure pair the access raises
`IndexError` (modelled as `none`); with two pairs the object selected for
display is the second `(restriction, raw_trace)` pair rather than the first
pair's trace. -/
theorem c3_driver_trace_index_error :
    failure_display_selection [(demoR1, RawTrace.mk 0)] = none ∧
    failure_display_selection [(demoR1, RawTrace.mk 0), (demoR2, RawTrace.mk 1)] =
      some (demoR1, (demoR2, RawTrace.mk 1)) :=
  ⟨rfl, rfl⟩

/-- C4: under the solver contract that every reported failing restriction is
drawn from the submitted atom list, the retry loop reaches a terminal state
within `|atoms| + 1` solver rounds (with ignore-failures each retry filters
the recorded failing restriction out of the atom list before the solver is
reset and re-invoked; without it the loop stops after the first failure), and
every retry strictly shrinks the atom list. -/
theorem c4_retry_loop_terminates (solver : List Restriction → List (Restriction × RawTrace))
    (ig : Bool) (atoms : List Restriction)
    (hs : ∀ ats p ps, solver ats = p :: ps → p.1 ∈ ats) :
    (resolveLoop solver ig (atoms.length + 1) atoms []).isSome = true ∧
    (∀ ats r t ps, solver ats = (r, t) :: ps →
      (ats.filter (fun x => x != r)).length < ats.length) := by
  constructor
  · exact resolveLoop_total solver ig hs (atoms.length + 1) atoms [] (by omega)
  · intro ats r t ps hsol
    exact length_filter_ne_lt ats r (hs ats (r, t) ps hsol)

theorem c4_witness :
    (resolveLoop demoSolver true (demoAtoms.length + 1) demoAtoms []).isSome = true :=
  (c4_retry_loop_terminates demoSolver true demoAtoms (by
    intro ats p ps h
    cases ats with
    | nil => simp [demoSolver] at h
    | cons a t =>
      simp only [demoSolver] at h
      cases h
      exact List.mem_cons_self a t)).1

/-- C8: removing an absent restriction from a present world set never raises
and never flushes (the set is returned untouched); a non-remove update adds
the restriction and flushes unconditionally, and the add is idempotent (a
second add leaves the element list, hence its cardinality, unchanged); with
the world set absent the call is a no-op. -/
theorem c8_update_worldset :
    (∀ w a, a ∉ w.elems → update_worldset (some w) a true = some w) ∧
    (∀ w a, update_worldset (some w) a false = some ((w.add a).flush) ∧
      ((w.add a).flush).flushes = w.flushes + 1 ∧
      ((w.add a).add a).elems = (w.add a).elems) ∧
    (∀ a rm, update_worldset none a rm = none) := by
  refine ⟨?_, ?_, ?_⟩
  · intro w a h
    simp [update_worldset, WorldSet.removeE, h]
  · intro w a
    exact ⟨rfl, rfl, WorldSet.add_elems_twice w a⟩
  · intro a rm
    rfl

theorem c8_witness :
    pkgA.versioned_atom ∉ (WorldSet.mk [pkgB.versioned_atom] 0).elems ∧
    update_worldset (some (WorldSet.mk [pkgB.versioned_atom] 0)) pkgA.versioned_atom true =
      some (WorldSet.mk [pkgB.versioned_atom] 0) :=
  ⟨by decide, c8_update_worldset.1 (WorldSet.mk [pkgB.versioned_atom] 0) pkgA.versioned_atom
    (by decide)⟩

/-- C10: when a token matches two or more distinct keys and the installed-set
narrowing leaves exactly one key, `parse_atom` returns the bare atom built
from that key alone — version, revision and slot constraints of the original
token's restriction are discarded (the result carries `none` for both). -/
theorem c10_bare_key_atom (r : Restriction) (repo livefs : List Pkg)
    (k1 k2 : String × String) (ks : List (String × String)) (ik : String × String)
    (hk : keyMatches r repo = k1 :: k2 :: ks)
    (hik : installedKeyMatches r livefs = [ik]) :
    parse_atom r repo livefs = .okR (.atomR (PAtom.mk ik.1 ik.2 none none)) := by
  simp [parse_atom, hk, hik]

theorem c10_witness :
    keyMatches demoTokVer c1repo = [(aS, pS), (bS, pS)] ∧
    installedKeyMatches demoTokVer c1livefs = [(cS, pS)] ∧
    parse_atom demoTokVer c1repo c1livefs = .okR (.atomR (PAtom.mk cS pS none none)) :=
  ⟨by decide, by decide,
   c10_bare_key_atom demoTokVer c1repo c1livefs (aS, pS) (bS, pS) [] (cS, pS)
     (by decide) (by decide)⟩

theorem dropLast_concat3 (st : List String) (a b c : String) :
    (st ++ [a, b, c]).dropLast.dropLast.dropLast = st := by
  have h : st ++ [a, b, c] = ((st ++ [a]) ++ [b]) ++ [c] := by simp
  rw [h, List.dropLast_concat, List.dropLast_concat, List.dropLast_concat]

theorem dropLast_concat4 (st : List String) (a b c d : String) :
    (st ++ [a, b, c, d]).dropLast.dropLast.dropLast.dropLast = st := by
  have h : st ++ [a, b, c, d] = (st ++ [a, b, c]) ++ [d] := by simp
  rw [h, List.dropLast_concat, dropLast_concat3]

mutual
theorem display_failures_ok_eq (dbg : Bool) :
    (t : FTrace) → (fl : Bool) → (st st2 : List String) →
    display_failures dbg t fl st = .okSt st2 → st2 = st
  | .empty, fl, st, st2, h => by simp [display_failures] at h
  | .frame a m entries, fl, st, st2, h => by
    unfold display_failures at h
    cases hE : display_entries dbg entries
        ((if fl then st ++ [fgRedS, bangS, resetS] else st) ++ [indentS]) with
    | raised s => rw [hE] at h; cases h
    | okSt st3 =>
      rw [hE] at h
      have h3 := display_entries_ok_eq dbg entries _ st3 hE
      cases h
      cases fl with
      | false =>
        simp only [Bool.false_eq_true, if_false] at h3 ⊢
        rw [h3, List.dropLast_concat]
      | true =>
        simp at h3 ⊢
        rw [h3]
        exact dropLast_concat4 st fgRedS bangS resetS indentS
theorem display_entries_ok_eq (dbg : Bool) :
    (es : FEntries) → (st st2 : List String) →
    display_entries dbg es st = .okSt st2 → st2 = st
  | .nil, st, st2, h => by
    unfold display_entries at h
    cases h
    rfl
  | .cons p steps rest, st, st2, h => by
    unfold display_entries at h
    cases hS : display_steps dbg steps (st ++ [indentS]) with
    | raised s => rw [hS] at h; cases h
    | okSt stA =>
      rw [hS] at h
      have hA := display_steps_ok_eq dbg steps _ stA hS
      have hR := display_entries_ok_eq dbg rest _ st2 h
      rw [hR, hA, List.dropLast_concat]
theorem display_steps_ok_eq (dbg : Bool) :
    (ss : FSteps) → (st st2 : List String) →
    display_steps dbg ss st = .okSt st2 → st2 = st
  | .nil, st, st2, h => by
    unfold display_steps at h
    cases h
    rfl
  | .cons s rest, st, st2, h => by
    unfold display_steps at h
    cases hS : display_step dbg s st with
    | raised s2 => rw [hS] at h; cases h
    | okSt stA =>
      rw [hS] at h
      have hA := display_step_ok_eq dbg s _ stA hS
      have hR := display_steps_ok_eq dbg rest _ st2 h
      rw [hR, hA]
theorem display_step_ok_eq (dbg : Bool) :
    (s : FStep) → (st st2 : List String) →
    display_step dbg s st = .okSt st2 → st2 = st
  | .nested t, st, st2, h => display_failures_ok_eq dbg t false st st2 h
  | .reduce c, st, st2, h => by unfold display_step at h; cases h; rfl
  | .blocker a ps, st, st2, h => by unfold display_step at h; cases h; rfl
  | .cycle m a d, st, st2, h => by unfold display_step at h; cases h; rfl
  | .viable f s3 s4, st, st2, h => by unfold display_step at h; cases h; rfl
  | .choiceS s1 ok d, st, st2, h => by unfold display_step at h; cases h; rfl
  | .debugS m, st, st2, h => by unfold display_step at h; cases h; rfl
  | .other s, st, st2, h => by unfold display_step at h; cases h; rfl
end

/-- C5, counterexample: a trace whose package entry contains a nested *empty*
sub-trace makes the renderer raise `StopIteration` mid-descent; the exception
escapes past every pending pop, leaving the indentation-prefix stack five
levels deeper than before the call, so the balance claimed for every trace
shape (including zero-length traces) fails on this trace. -/
theorem c5_counterexample :
    display_failures false c5bad true [] =
      .raised [fgRedS, bangS, resetS, indentS, indentS] ∧
    ([fgRedS, bangS, resetS, indentS, indentS] : List String).length ≠
      ([] : List String).length :=
  ⟨by decide, by decide⟩

/-- C5, amended: every render call that returns normally leaves the
indentation-prefix stack exactly as it found it, at every nesting depth and
for either first-level flag; a zero-length trace instead raises
`StopIteration` immediately, leaving the stack unchanged at the point of the
raise (a nested empty sub-trace, however, escapes with pushed levels still on
the stack). -/
theorem c5_display_failures_balance :
    (∀ (dbg : Bool) (t : FTrace) (fl : Bool) (st st2 : List String),
      display_failures dbg t fl st = .okSt st2 → st2 = st) ∧
    (∀ (dbg : Bool) (st : List String), display_failures dbg .empty true st = .raised st) :=
  ⟨fun dbg t fl st st2 h => display_failures_ok_eq dbg t fl st st2 h,
   fun _ _ => rfl⟩

theorem c5_witness :
    display_failures false c5good true [xS] = .okSt [xS] ∧ ([xS] : List String) = [xS] :=
  ⟨by decide, c5_display_failures_balance.1 false c5good true [xS] [xS] (by decide)⟩

/-! ### Executor helper lemmas -/

theorem isPhaseAt_shape {k : Nat} {e : MEvent} (h : MEvent.isPhaseAt k e = true) :
    ∃ p, e = MEvent.phase k p := by
  cases e with
  | invoke r t => simp [MEvent.isPhaseAt] at h
  | phase j p =>
    simp only [MEvent.isPhaseAt, beq_iff_eq] at h
    subst h
    exact ⟨p, rfl⟩

theorem isPhaseAt_stamp {k : Nat} {e : MEvent} (h : MEvent.isPhaseAt k e = true) :
    e.stamp = 2 * k + 1 := by
  obtain ⟨p, rfl⟩ := isPhaseAt_shape h
  rfl

theorem processOp_spec (ig fo : Bool) (k : Nat) (op : MOp) (oc : MOutcome)
    (evs : List MEvent) (tags : List Nat) (b : Bool)
    (h : processOp ig fo k op oc = some (evs, tags, b)) :
    evs.all (MEvent.isPhaseAt k) = true ∧ tags.Nodup := by
  rcases op with ⟨kind, pkg, oldPkg⟩
  cases kind <;> simp only [processOp] at h <;> repeat' split at h
  all_goals (cases h)
  all_goals exact ⟨by simp [MEvent.isPhaseAt], by decide⟩

theorem execRun_cons_inv (ig fo os ug : Bool) (atoms : List Restriction) (slotRepo : List Pkg)
    (k : Nat) (op : MOp) (oc : MOutcome) (rest : List (MOp × MOutcome))
    (cleanup : List (Nat × Nat)) (world : Option WorldSet)
    (tr : List MEvent) (wf : Option WorldSet)
    (h : execRun ig fo os ug atoms slotRepo k ((op, oc) :: rest) cleanup world = some (tr, wf)) :
    ∃ evs tags dW w2 tr2,
      processOp ig fo k op oc = some (evs, tags, dW) ∧
      (if dW then worldStep os ug atoms slotRepo op world else some world) = some w2 ∧
      execRun ig fo os ug atoms slotRepo (k + 1) rest (tags.map (fun t => (k, t))) w2 =
        some (tr2, wf) ∧
      tr = (cleanup.map (fun ct => MEvent.invoke ct.1 ct.2)) ++ evs ++ tr2 := by
  simp only [execRun] at h
  cases hp : processOp ig fo k op oc with
  | none => rw [hp] at h; cases h
  | some res =>
    obtain ⟨evs, tags, dW⟩ := res
    rw [hp] at h
    simp only at h
    cases hw : (if dW then worldStep os ug atoms slotRepo op world else some world) with
    | none => rw [hw] at h; cases h
    | some w2 =>
      rw [hw] at h
      simp only at h
      cases hr : execRun ig fo os ug atoms slotRepo (k + 1) rest
          (tags.map (fun t => (k, t))) w2 with
      | none => rw [hr] at h; cases h
      | some pr =>
        obtain ⟨tr2, wf2⟩ := pr
        rw [hr] at h
        simp only at h
        cases h
        exact ⟨evs, tags, dW, w2, tr2, rfl, hw, hr, rfl⟩

theorem execRun_cons_eval (ig fo os ug : Bool) (atoms : List Restriction) (slotRepo : List Pkg)
    (k : Nat) (op : MOp) (oc : MOutcome) (rest : List (MOp × MOutcome))
    (cleanup : List (Nat × Nat)) (world : Option WorldSet)
    (evs : List MEvent) (tags : List Nat) (dW : Bool) (w2 : Option WorldSet)
    (tr2 : List MEvent) (wf2 : Option WorldSet)
    (hp : processOp ig fo k op oc = some (evs, tags, dW))
    (hw : (if dW then worldStep os ug atoms slotRepo op world else some world) = some w2)
    (hr : execRun ig fo os ug atoms slotRepo (k + 1) rest (tags.map (fun t => (k, t))) w2 =
      some (tr2, wf2)) :
    execRun ig fo os ug atoms slotRepo k ((op, oc) :: rest) cleanup world =
      some ((cleanup.map (fun ct => MEvent.invoke ct.1 ct.2)) ++ evs ++ tr2, wf2) := by
  simp only [execRun, hp]
  rw [hw]
  show (match execRun ig fo os ug atoms slotRepo (k + 1) rest (tags.map (fun t => (k, t))) w2 with
        | none => none
        | some (tr, wf) =>
          some ((cleanup.map (fun ct => MEvent.invoke ct.1 ct.2)) ++ evs ++ tr, wf)) =
      some ((cleanup.map (fun ct => MEvent.invoke ct.1 ct.2)) ++ evs ++ tr2, wf2)
  rw [hr]

theorem pairwise_stamp_of_const (l : List MEvent) (c : Nat) (h : ∀ e ∈ l, MEvent.stamp e = c) :
    l.Pairwise (fun a b => a.stamp ≤ b.stamp) := by
  induction l with
  | nil => exact List.Pairwise.nil
  | cons a t ih =>
    refine List.Pairwise.cons ?_ (ih (fun e he => h e (List.mem_cons_of_mem a he)))
    intro b hb
    rw [h a (List.mem_cons_self a t), h b (List.mem_cons_of_mem a hb)]

theorem count_invoke_map (l : List (Nat × Nat)) (r t : Nat) :
    (l.map (fun ct => MEvent.invoke ct.1 ct.2)).count (MEvent.invoke r t) = l.count (r, t) := by
  induction l with
  | nil => rfl
  | cons a l ih =>
    obtain ⟨x, y⟩ := a
    simp only [List.map_cons, List.count_cons, ih]
    congr 1
    by_cases hx : x = r ∧ y = t
    · obtain ⟨rfl, rfl⟩ := hx
      simp
    · have h1 : (MEvent.invoke x y == MEvent.invoke r t) = false := by
        simp only [beq_eq_false_iff_ne, ne_eq, MEvent.invoke.injEq, not_and]
        intro hxr hyt
        exact hx ⟨hxr, hyt⟩
      have h2 : (((x, y) : Nat × Nat) == (r, t)) = false := by
        simp only [beq_eq_false_iff_ne, ne_eq, Prod.mk.injEq, not_and]
        intro hxr hyt
        exact hx ⟨hxr, hyt⟩
      rw [h1, h2]

theorem count_pair_map (tags : List Nat) (k r t : Nat) :
    (tags.map (fun x => (k, x))).count (r, t) = if k = r then tags.count t else 0 := by
  induction tags with
  | nil => simp
  | cons a l ih =>
    simp only [List.map_cons, List.count_cons, ih]
    by_cases hk : k = r
    · subst hk
      by_cases ha : a = t
      · subst ha
        simp
      · simp [ha, Prod.ext_iff]
    · simp [hk, Prod.ext_iff]

theorem execRun_stamp_lb (ig fo os ug : Bool) (atoms : List Restriction) (slotRepo : List Pkg) :
    ∀ (ops : List (MOp × MOutcome)) (k : Nat) (cleanup : List (Nat × Nat))
      (world : Option WorldSet) (tr : List MEvent) (wf : Option WorldSet) (m : Nat),
      execRun ig fo os ug atoms slotRepo k ops cleanup world = some (tr, wf) →
      (∀ ct ∈ cleanup, m ≤ ct.1 + 1) → m ≤ k →
      ∀ e ∈ tr, 2 * m ≤ e.stamp := by
  intro ops
  induction ops with
  | nil =>
    intro k cleanup world tr wf m h hcl hk e he
    simp only [execRun] at h
    cases h
    obtain ⟨ct, hct, rfl⟩ := List.mem_map.mp he
    have := hcl ct hct
    simp only [MEvent.stamp]
    omega
  | cons hd rest ih =>
    obtain ⟨op, oc⟩ := hd
    intro k cleanup world tr wf m h hcl hk e he
    obtain ⟨evs, tags, dW, w2, tr2, hp, hw, hr, rfl⟩ :=
      execRun_cons_inv ig fo os ug atoms slotRepo k op oc rest cleanup world tr wf h
    rcases List.mem_append.mp he with h1 | h23
    · rcases List.mem_append.mp h1 with hdrain | hevs
      · obtain ⟨ct, hct, rfl⟩ := List.mem_map.mp hdrain
        have := hcl ct hct
        simp only [MEvent.stamp]
        omega
      · have hall := (processOp_spec ig fo k op oc evs tags dW hp).1
        have := isPhaseAt_stamp (List.all_eq_true.mp hall e hevs)
        omega
    · refine ih (k + 1) (tags.map (fun t => (k, t))) w2 tr2 wf m hr ?_ (by omega) e h23
      intro ct hct
      obtain ⟨t, _, rfl⟩ := List.mem_map.mp hct
      omega

theorem execRun_stamp_ub (ig fo os ug : Bool) (atoms : List Restriction) (slotRepo : List Pkg) :
    ∀ (ops : List (MOp × MOutcome)) (k : Nat) (cleanup : List (Nat × Nat))
      (world : Option WorldSet) (tr : List MEvent) (wf : Option WorldSet),
      execRun ig fo os ug atoms slotRepo k ops cleanup world = some (tr, wf) →
      (∀ ct ∈ cleanup, ct.1 + 1 ≤ k) →
      ∀ e ∈ tr, e.stamp ≤ 2 * (k + ops.length) := by
  intro ops
  induction ops with
  | nil =>
    intro k cleanup world tr wf h hcl e he
    simp only [execRun] at h
    cases h
    obtain ⟨ct, hct, rfl⟩ := List.mem_map.mp he
    have := hcl ct hct
    simp only [MEvent.stamp, List.length_nil]
    omega
  | cons hd rest ih =>
    obtain ⟨op, oc⟩ := hd
    intro k cleanup world tr wf h hcl e he
    obtain ⟨evs, tags, dW, w2, tr2, hp, hw, hr, rfl⟩ :=
      execRun_cons_inv ig fo os ug atoms slotRepo k op oc rest cleanup world tr wf h
    simp only [List.length_cons]
    rcases List.mem_append.mp he with h1 | h23
    · rcases List.mem_append.mp h1 with hdrain | hevs
      · obtain ⟨ct, hct, rfl⟩ := List.mem_map.mp hdrain
        have := hcl ct hct
        simp only [MEvent.stamp]
        omega
      · have hall := (processOp_spec ig fo k op oc evs tags dW hp).1
        have := isPhaseAt_stamp (List.all_eq_true.mp hall e hevs)
        omega
    · have := ih (k + 1) (tags.map (fun t => (k, t))) w2 tr2 wf hr
        (by
          intro ct hct
          obtain ⟨t, _, rfl⟩ := List.mem_map.mp hct
          omega) e h23
      omega

theorem execRun_sorted (ig fo os ug : Bool) (atoms : List Restriction) (slotRepo : List Pkg) :
    ∀ (ops : List (MOp × MOutcome)) (k : Nat) (cleanup : List (Nat × Nat))
      (world : Option WorldSet) (tr : List MEvent) (wf : Option WorldSet),
      execRun ig fo os ug atoms slotRepo k ops cleanup world = some (tr, wf) →
      (∀ ct ∈ cleanup, ct.1 + 1 = k) →
      tr.Pairwise (fun a b => a.stamp ≤ b.stamp) := by
  intro ops
  induction ops with
  | nil =>
    intro k cleanup world tr wf h hcl
    simp only [execRun] at h
    cases h
    refine pairwise_stamp_of_const _ (2 * k) ?_
    intro e he
    obtain ⟨ct, hct, rfl⟩ := List.mem_map.mp he
    have := hcl ct hct
    simp only [MEvent.stamp]
    omega
  | cons hd rest ih =>
    obtain ⟨op, oc⟩ := hd
    intro k cleanup world tr wf h hcl
    obtain ⟨evs, tags, dW, w2, tr2, hp, hw, hr, rfl⟩ :=
      execRun_cons_inv ig fo os ug atoms slotRepo k op oc rest cleanup world tr wf h
    have hall := (processOp_spec ig fo k op oc evs tags dW hp).1
    have hdrain_stamp : ∀ e ∈ cleanup.map (fun ct => MEvent.invoke ct.1 ct.2),
        MEvent.stamp e = 2 * k := by
      intro e he
      obtain ⟨ct, hct, rfl⟩ := List.mem_map.mp he
      have := hcl ct hct
      simp only [MEvent.stamp]
      omega
    have hevs_stamp : ∀ e ∈ evs, MEvent.stamp e = 2 * k + 1 := by
      intro e he
      exact isPhaseAt_stamp (List.all_eq_true.mp hall e he)
    have htr2_lb : ∀ e ∈ tr2, 2 * (k + 1) ≤ MEvent.stamp e := by
      intro e he
      refine execRun_stamp_lb ig fo os ug atoms slotRepo rest (k + 1)
        (tags.map (fun t => (k, t))) w2 tr2 wf (k + 1) hr ?_ (by omega) e he
      intro ct hct
      obtain ⟨t, _, rfl⟩ := List.mem_map.mp hct
      omega
    have htr2 : tr2.Pairwise (fun a b => a.stamp ≤ b.stamp) := by
      refine ih (k + 1) (tags.map (fun t => (k, t))) w2 tr2 wf hr ?_
      intro ct hct
      obtain ⟨t, _, rfl⟩ := List.mem_map.mp hct
      omega
    rw [List.pairwise_append]
    refine ⟨?_, htr2, ?_⟩
    · rw [List.pairwise_append]
      refine ⟨pairwise_stamp_of_const _ (2 * k) hdrain_stamp,
             pairwise_stamp_of_const _ (2 * k + 1) hevs_stamp, ?_⟩
      intro a ha b hb
      have h1 := hdrain_stamp a ha
      have h2 := hevs_stamp b hb
      omega
    · intro a ha b hb
      have h2 := htr2_lb b hb
      rcases List.mem_append.mp ha with h1 | h1
      · have := hdrain_stamp a h1
        omega
      · have := hevs_stamp a h1
        omega

theorem execRun_invoke_count (ig fo os ug : Bool) (atoms : List Restriction)
    (slotRepo : List Pkg) :
    ∀ (ops : List (MOp × MOutcome)) (k : Nat) (cleanup : List (Nat × Nat))
      (world : Option WorldSet) (tr : List MEvent) (wf : Option WorldSet) (r t : Nat),
      execRun ig fo os ug atoms slotRepo k ops cleanup world = some (tr, wf) →
      tr.count (MEvent.invoke r t) =
        cleanup.count (r, t) +
          (if k ≤ r then (cleanupTagsFrom ig fo k ops r).count t else 0) := by
  intro ops
  induction ops with
  | nil =>
    intro k cleanup world tr wf r t h
    simp only [execRun] at h
    cases h
    rw [count_invoke_map]
    have he : cleanupTagsFrom ig fo k [] r = [] := by
      simp [cleanupTagsFrom]
    rw [he]
    simp
  | cons hd rest ih =>
    obtain ⟨op, oc⟩ := hd
    intro k cleanup world tr wf r t h
    obtain ⟨evs, tags, dW, w2, tr2, hp, hw, hr, rfl⟩ :=
      execRun_cons_inv ig fo os ug atoms slotRepo k op oc rest cleanup world tr wf h
    have hevs0 : evs.count (MEvent.invoke r t) = 0 := by
      rw [List.count_eq_zero]
      intro hmem
      have hall := (processOp_spec ig fo k op oc evs tags dW hp).1
      have := List.all_eq_true.mp hall _ hmem
      simp [MEvent.isPhaseAt] at this
    have hrec := ih (k + 1) (tags.map (fun t => (k, t))) w2 tr2 wf r t hr
    rw [List.count_append, List.count_append, count_invoke_map, hevs0, hrec, count_pair_map]
    rcases Nat.lt_trichotomy r k with hlt | heq | hgt
    · rw [if_neg (by omega), if_neg (by omega), if_neg (by omega)]
    · subst heq
      rw [if_pos rfl, if_neg (by omega), if_pos (by omega)]
      have htag : cleanupTagsFrom ig fo r ((op, oc) :: rest) r = tags := by
        simp [cleanupTagsFrom, hp, Option.elim]
      rw [htag]
      omega
    · rw [if_neg (by omega), if_pos (by omega), if_pos (by omega)]
      have htag : cleanupTagsFrom ig fo k ((op, oc) :: rest) r =
          cleanupTagsFrom ig fo (k + 1) rest r := by
        unfold cleanupTagsFrom
        have h1 : r - k = (r - (k + 1)) + 1 := by omega
        rw [h1]
        simp
      rw [htag]
      omega

theorem execRun_phase_src (ig fo os ug : Bool) (atoms : List Restriction)
    (slotRepo : List Pkg) :
    ∀ (ops : List (MOp × MOutcome)) (k : Nat) (cleanup : List (Nat × Nat))
      (world : Option WorldSet) (tr : List MEvent) (wf : Option WorldSet) (j : Nat)
      (p : PhaseName),
      execRun ig fo os ug atoms slotRepo k ops cleanup world = some (tr, wf) →
      MEvent.phase j p ∈ tr →
      k ≤ j ∧ ∃ op oc evs tags dW, ops[j - k]? = some (op, oc) ∧
        processOp ig fo j op oc = some (evs, tags, dW) ∧ MEvent.phase j p ∈ evs := by
  intro ops
  induction ops with
  | nil =>
    intro k cleanup world tr wf j p h hmem
    simp only [execRun] at h
    cases h
    obtain ⟨ct, _, hct⟩ := List.mem_map.mp hmem
    simp at hct
  | cons hd rest ih =>
    obtain ⟨op, oc⟩ := hd
    intro k cleanup world tr wf j p h hmem
    obtain ⟨evs, tags, dW, w2, tr2, hp, hw, hr, rfl⟩ :=
      execRun_cons_inv ig fo os ug atoms slotRepo k op oc rest cleanup world tr wf h
    rcases List.mem_append.mp hmem with h1 | h23
    · rcases List.mem_append.mp h1 with hdrain | hevs
      · obtain ⟨ct, _, hct⟩ := List.mem_map.mp hdrain
        simp at hct
      · have hall := (processOp_spec ig fo k op oc evs tags dW hp).1
        have hsh := List.all_eq_true.mp hall _ hevs
        have hjk : j = k := by simpa [MEvent.isPhaseAt] using hsh
        subst hjk
        refine ⟨Nat.le_refl j, op, oc, evs, tags, dW, ?_, hp, hevs⟩
        simp
    · obtain ⟨hk1, op2, oc2, evs2, tags2, dW2, hget, hproc, hmem2⟩ :=
        ih (k + 1) (tags.map (fun t => (k, t))) w2 tr2 wf j p hr h23
      refine ⟨by omega, op2, oc2, evs2, tags2, dW2, ?_, hproc, hmem2⟩
      have h1 : j - k = (j - (k + 1)) + 1 := by omega
      rw [h1]
      simpa using hget

theorem eventsBefore_of_stamp (tr : List MEvent) (P Q : MEvent → Prop) (b : Nat)
    (hs : tr.Pairwise (fun a c => a.stamp ≤ c.stamp))
    (hP : ∀ e ∈ tr, P e → e.stamp < b) (hQ : ∀ e ∈ tr, Q e → b ≤ e.stamp) :
    eventsBefore tr P Q := by
  intro i j hi hj hPi hQj
  by_contra hij
  have h1 := hP _ (List.get_mem tr i hi) hPi
  have h2 := hQ _ (List.get_mem tr j hj) hQj
  rcases Nat.lt_or_ge j i with hlt | hge
  · have := List.pairwise_iff_get.mp hs ⟨j, hj⟩ ⟨i, hi⟩ hlt
    omega
  · have : i = j := by omega
    subst this
    omega

/-- C6: in every executor run that no operation aborts, each cleanup
obligation registered while processing operation `k` is invoked exactly once
in the whole run and strictly before any phase of operation `k+1` (the drain
at the top of the next iteration), and each obligation registered by the
final operation is likewise invoked exactly once, after every phase of the
run (the unconditional drain after the loop). -/
theorem c6_cleanup_drain_order (ig fo os ug : Bool) (atoms : List Restriction)
    (slotRepo : List Pkg) (ops : List (MOp × MOutcome)) (w0 : Option WorldSet)
    (tr : List MEvent) (wf : Option WorldSet)
    (hrun : execRun ig fo os ug atoms slotRepo 0 ops [] w0 = some (tr, wf)) :
    (∀ k t, t ∈ cleanupTagsAt ig fo ops k →
      tr.count (MEvent.invoke k t) = 1 ∧
      eventsBefore tr (fun e => e = MEvent.invoke k t)
        (fun e => ∃ p, e = MEvent.phase (k + 1) p)) ∧
    (∀ t, t ∈ cleanupTagsAt ig fo ops (ops.length - 1) →
      eventsBefore tr (fun e => ∃ j p, e = MEvent.phase j p)
        (fun e => e = MEvent.invoke (ops.length - 1) t)) := by
  have hsorted := execRun_sorted ig fo os ug atoms slotRepo ops 0 [] w0 tr wf hrun
    (by intro ct hct; simp at hct)
  have hnodup : ∀ k, (cleanupTagsAt ig fo ops k).Nodup := by
    intro k
    show (cleanupTagsFrom ig fo 0 ops k).Nodup
    unfold cleanupTagsFrom
    cases hget : ops[k - 0]? with
    | none => exact List.nodup_nil
    | some pr =>
      obtain ⟨op, oc⟩ := pr
      show ((processOp ig fo k op oc).elim [] (fun x => x.2.1)).Nodup
      cases hproc : processOp ig fo k op oc with
      | none => exact List.nodup_nil
      | some res =>
        obtain ⟨evs, tags, dW⟩ := res
        exact (processOp_spec ig fo k op oc evs tags dW hproc).2
  have hcount : ∀ k t, tr.count (MEvent.invoke k t) = (cleanupTagsAt ig fo ops k).count t := by
    intro k t
    have h := execRun_invoke_count ig fo os ug atoms slotRepo ops 0 [] w0 tr wf k t hrun
    simpa [cleanupTagsAt] using h
  constructor
  · intro k t ht
    refine ⟨?_, ?_⟩
    · rw [hcount k t]
      exact List.count_eq_one_of_mem (hnodup k) ht
    · refine eventsBefore_of_stamp tr _ _ (2 * k + 3) hsorted ?_ ?_
      · intro e _ hP
        subst hP
        simp only [MEvent.stamp]
        omega
      · intro e _ hQ
        obtain ⟨p, rfl⟩ := hQ
        simp only [MEvent.stamp]
        omega
  · intro t ht
    have hlen : 1 ≤ ops.length := by
      cases ops with
      | nil => simp [cleanupTagsAt, cleanupTagsFrom] at ht
      | cons a l => simp
    refine eventsBefore_of_stamp tr _ _ (2 * (ops.length - 1) + 2) hsorted ?_ ?_
    · intro e he hP
      obtain ⟨j, p, rfl⟩ := hP
      have hub := execRun_stamp_ub ig fo os ug atoms slotRepo ops 0 [] w0 tr wf hrun
        (by intro ct hct; simp at hct) _ he
      simp only [MEvent.stamp] at hub ⊢
      omega
    · intro e _ hQ
      subst hQ
      simp only [MEvent.stamp]
      omega

theorem c6_witness :
    0 ∈ cleanupTagsAt false false c6ops 0 ∧ c6trace.count (MEvent.invoke 0 0) = 1 :=
  ⟨by decide,
   ((c6_cleanup_drain_order false false false false [] [] c6ops none c6trace none
      (by decide)).1 0 0 (by decide)).1⟩

/-- C7, counterexample: with ignore-failures set, operation 0 (not a remove)
has a failing fetch and is skipped, yet the cleanup entry it registered
before fetching (tag 0, the release of its cached data) *is* fired at the
start of operation 1 — the event `invoke 0 0` occurs in the run's trace —
contradicting the claim that no cleanup entries registered for a skipped
operation are ever fired. -/
theorem c7_counterexample :
    execRun true false false false [] [] 0 c7ops [] none = some (c7trace, none) ∧
    MEvent.invoke 0 0 ∈ c7trace ∧
    c7ops[0]? = some (installA, fetchFailOutcome) ∧
    fetchFailOutcome.fetchOk = false :=
  ⟨by decide, by decide, by decide, by decide⟩

/-- C7, amended: when a non-Remove operation's fetch fails under
ignore-failures, the operation is skipped — no build, localize, install,
replace, or finish phase of it ever appears in the trace (its only phase is
the fetch) — but the single cleanup obligation it registered before fetching
(tag 0, the cached-data release) is still invoked at the next drain point
rather than never. -/
theorem c7_skip_behavior (fo os ug : Bool) (atoms : List Restriction) (slotRepo : List Pkg)
    (ops : List (MOp × MOutcome)) (w0 : Option WorldSet) (tr : List MEvent)
    (wf : Option WorldSet) (k : Nat) (op : MOp) (oc : MOutcome)
    (hk : ops[k]? = some (op, oc)) (hkind : op.kind ≠ OpKind.removeK)
    (hf : oc.fetchOk = false)
    (hrun : execRun true fo os ug atoms slotRepo 0 ops [] w0 = some (tr, wf)) :
    (∀ p, p ≠ PhaseName.fetchP → MEvent.phase k p ∉ tr) ∧
    MEvent.invoke k 0 ∈ tr := by
  have hproc : processOp true fo k op oc =
      some ([MEvent.phase k PhaseName.fetchP], [0], false) := by
    rcases op with ⟨kind, pkg, old⟩
    cases kind with
    | removeK => exact absurd rfl hkind
    | addK => simp [processOp, hf]
    | replaceK => simp [processOp, hf]
  constructor
  · intro p hp hmem
    obtain ⟨hle, op2, oc2, evs2, tags2, dW2, hget, hproc2, hmem2⟩ :=
      execRun_phase_src true fo os ug atoms slotRepo ops 0 [] w0 tr wf k p hrun hmem
    rw [Nat.sub_zero, hk] at hget
    cases hget
    rw [hproc] at hproc2
    cases hproc2
    simp only [List.mem_singleton, MEvent.phase.injEq] at hmem2
    exact hp hmem2.2
  · have hcount := execRun_invoke_count true fo os ug atoms slotRepo ops 0 [] w0 tr wf k 0 hrun
    have htags : cleanupTagsFrom true fo 0 ops k = [0] := by
      unfold cleanupTagsFrom
      rw [Nat.sub_zero, hk]
      simp [hproc, Option.elim]
    rw [htags] at hcount
    have hone : tr.count (MEvent.invoke k 0) = 1 := by
      simpa using hcount
    have hpos : 0 < tr.count (MEvent.invoke k 0) := by omega
    exact List.count_pos_iff.mp hpos

theorem c7_witness :
    MEvent.phase 0 PhaseName.buildP ∉ c7trace ∧ MEvent.invoke 0 0 ∈ c7trace := by
  have h := c7_skip_behavior false false false [] [] c7ops none c7trace none 0
    installA fetchFailOutcome (by decide) (by decide) (by decide) (by decide)
  exact ⟨h.1 PhaseName.buildP (by decide), h.2⟩

/-- C9: for the plan `[Install(A), Install(B)]` with world tracking enabled
(`world_set` present), oneshot off, no upgrade pass, and both packages
matching user-requested atoms, every collaborator call succeeding: each
install records the package's slot-normalised versioned atom in the world
set with an immediate flush, so the final world set is the initial one plus
`{A, B}` (membership-wise); with oneshot enabled `world_set` is `None` from
the start, the executor never touches the world set, and the run's world
component is exactly its initial (absent) state. -/
theorem c9_world_tracking (pA pB : Pkg) (w0 : WorldSet) (atoms : List Restriction)
    (slotRepo : List Pkg)
    (hA : atoms.any (fun r => rmatch r pA) = true)
    (hB : atoms.any (fun r => rmatch r pB) = true) :
    execRun false false false false atoms slotRepo 0 (c9ops pA pB) []
        (effectiveWorldSet false w0) =
      some (c9trace,
        some (((w0.add pA.versioned_atom).flush.add pB.versioned_atom).flush)) ∧
    (∀ x, x ∈ (((w0.add pA.versioned_atom).flush.add pB.versioned_atom).flush).elems ↔
      (x ∈ w0.elems ∨ x = pA.versioned_atom ∨ x = pB.versioned_atom)) ∧
    execRun false false true false atoms slotRepo 0 (c9ops pA pB) []
        (effectiveWorldSet true w0) = some (c9trace, none) := by
  have hstep : ∀ (pkg : Pkg) (w : WorldSet), atoms.any (fun r => rmatch r pkg) = true →
      worldStep false false atoms slotRepo (MOp.mk OpKind.addK pkg none) (some w) =
        some (some ((w.add pkg.versioned_atom).flush)) := by
    intro pkg w hmatch
    simp [worldStep, hmatch, slotatom_if_slotted, Pkg.versioned_atom, update_worldset]
  refine ⟨?_, ?_, ?_⟩
  · have hp0 : processOp false false 0 (MOp.mk OpKind.addK pA none) okOutcome =
        some ([MEvent.phase 0 PhaseName.fetchP, MEvent.phase 0 PhaseName.localizeP,
               MEvent.phase 0 PhaseName.installP, MEvent.phase 0 PhaseName.finishP],
              [0, 3], true) := rfl
    have hp1 : processOp false false 1 (MOp.mk OpKind.addK pB none) okOutcome =
        some ([MEvent.phase 1 PhaseName.fetchP, MEvent.phase 1 PhaseName.localizeP,
               MEvent.phase 1 PhaseName.installP, MEvent.phase 1 PhaseName.finishP],
              [0, 3], true) := rfl
    have hw0 : (if true then worldStep false false atoms slotRepo
          (MOp.mk OpKind.addK pA none) (some w0) else some (some w0)) =
        some (some ((w0.add pA.versioned_atom).flush)) := by
      show worldStep false false atoms slotRepo (MOp.mk OpKind.addK pA none) (some w0) =
        some (some ((w0.add pA.versioned_atom).flush))
      exact hstep pA w0 hA
    have hw1 : (if true then worldStep false false atoms slotRepo
          (MOp.mk OpKind.addK pB none) (some ((w0.add pA.versioned_atom).flush))
          else some (some ((w0.add pA.versioned_atom).flush))) =
        some (some (((w0.add pA.versioned_atom).flush.add pB.versioned_atom).flush)) := by
      show worldStep false false atoms slotRepo (MOp.mk OpKind.addK pB none)
          (some ((w0.add pA.versioned_atom).flush)) =
        some (some (((w0.add pA.versioned_atom).flush.add pB.versioned_atom).flush))
      exact hstep pB ((w0.add pA.versioned_atom).flush) hB
    have base : execRun false false false false atoms slotRepo 2 []
        (([0, 3] : List Nat).map (fun t => (1, t)))
        (some (((w0.add pA.versioned_atom).flush.add pB.versioned_atom).flush)) =
        some ([MEvent.invoke 1 0, MEvent.invoke 1 3],
          some (((w0.add pA.versioned_atom).flush.add pB.versioned_atom).flush)) := rfl
    have step1 := execRun_cons_eval false false false false atoms slotRepo 1
      (MOp.mk OpKind.addK pB none) okOutcome [] (([0, 3] : List Nat).map (fun t => (0, t)))
      (some ((w0.add pA.versioned_atom).flush)) _ _ _ _ _ _ hp1 hw1 base
    have step0 := execRun_cons_eval false false false false atoms slotRepo 0
      (MOp.mk OpKind.addK pA none) okOutcome [(MOp.mk OpKind.addK pB none, okOutcome)] []
      (some w0) _ _ _ _ _ _ hp0 hw0 step1
    exact step0
  · intro x
    have h1 := WorldSet.mem_add_elems ((w0.add pA.versioned_atom).flush) pB.versioned_atom x
    have h2 := WorldSet.mem_add_elems w0 pA.versioned_atom x
    have hfl : ((w0.add pA.versioned_atom).flush).elems = (w0.add pA.versioned_atom).elems := rfl
    have hfl2 : ((((w0.add pA.versioned_atom).flush.add pB.versioned_atom)).flush).elems =
        ((w0.add pA.versioned_atom).flush.add pB.versioned_atom).elems := rfl
    rw [hfl2, h1, hfl, h2]
    tauto
  · rfl

theorem c9_witness :
    c9atoms.any (fun r => rmatch r pkgA) = true ∧
    execRun false false false false c9atoms [] 0 (c9ops pkgA pkgB) []
        (effectiveWorldSet false (WorldSet.mk [] 0)) =
      some (c9trace, some ((((WorldSet.mk [] 0).add pkgA.versioned_atom).flush.add
        pkgB.versioned_atom).flush)) :=
  ⟨by decide,
   (c9_world_tracking pkgA pkgB (WorldSet.mk [] 0) c9atoms [] (by decide) (by decide)).1⟩
